import Mathlib

/-!
Verification of the akane video service's core algorithms, embedded from the
Rust sources: the signed playback tokens (src/handlers/common.rs and
src/handlers.rs), variant selection and the master playlist (src/video.rs),
chunked upload reassembly and progress tracking (src/handlers.rs), and the
live-viewer presence tracker (src/handlers/analytics.rs).

External collaborators are abstracted: HMAC-SHA256 (the hmac/sha2 crates) is a
parameter `MacFun` mapping a secret and a payload to MAC bytes; wall-clock
reads (`SystemTime::now`) become explicit `now` arguments; the filesystem and
the shared `HashMap` stores become explicit values threaded through the
functions. hex encoding/decoding (the hex crate) is embedded concretely since
its details are load-bearing.
-/

namespace Akane

/-- A byte, as produced by HMAC and consumed by hex encoding. -/
abbrev Byte := Fin 256

/-- The type of the abstracted HMAC-SHA256: secret and payload to MAC bytes.
In the Rust source this is `Hmac::<Sha256>` keyed by `secret.as_bytes()`
updated with the payload bytes. -/
abbrev MacFun := String → List Char → List Byte

/-! ## Decimal rendering and parsing

`format!("{}", n)` renders a `u64` as decimal digits; `str::parse::<u64>()`
accepts an optional leading `+` followed by decimal digits and fails on
overflow past `u64::MAX`. -/

/-- Digit rendering worker, structurally recursive on a fuel bound so that it
evaluates inside the kernel; any fuel above the value itself suffices. -/
def natToCharsAux : Nat → Nat → List Char
  | 0, _ => []
  | fuel + 1, n =>
    if n < 10 then [Char.ofNat (48 + n)]
    else natToCharsAux fuel (n / 10) ++ [Char.ofNat (48 + n % 10)]

/-- The decimal digits of `n`, most significant first, as `format!("{}")`
renders a nonnegative integer. -/
def natToChars (n : Nat) : List Char := natToCharsAux (n + 1) n

/-- The numeric value of one ASCII decimal digit. -/
def digitVal (c : Char) : Option Nat :=
  if 48 ≤ c.toNat ∧ c.toNat ≤ 57 then some (c.toNat - 48) else none

/-- Value of a nonempty all-digit string, most significant digit first. -/
def digitsVal (cs : List Char) : Option Nat :=
  if cs.isEmpty then none
  else cs.foldl (fun acc c => acc.bind fun v => (digitVal c).map fun d => v * 10 + d) (some 0)

/-- Rust's unsigned `parse` accepts one optional leading `+`. -/
def stripPlus (cs : List Char) : List Char :=
  match cs with
  | [] => []
  | c :: rest => if c = '+' then rest else c :: rest

/-- `str::parse` for an unsigned integer type whose values are `< bound`:
optional `+`, then a nonempty digit run, failing on overflow. -/
def parseUInt (bound : Nat) (cs : List Char) : Option Nat :=
  match digitsVal (stripPlus cs) with
  | some v => if v < bound then some v else none
  | none => none

/-- `str::parse::<u64>()`. -/
def parseU64 (cs : List Char) : Option Nat := parseUInt (2 ^ 64) cs

/-- `str::parse::<u32>()`. -/
def parseU32 (cs : List Char) : Option Nat := parseUInt (2 ^ 32) cs

/-! ## hex encoding (the hex crate)

`hex::encode` renders bytes as lowercase hex; `hex::decode` accepts upper or
lower case and fails on odd length or a non-hex character. -/

/-- Lowercase hex digit for a value below 16, as `hex::encode` emits. -/
def hexDigitChar (n : Nat) : Char :=
  if n < 10 then Char.ofNat (48 + n) else Char.ofNat (97 + (n - 10))

/-- `hex::encode`: each byte becomes its high then low nibble. -/
def hexEncodeL (bs : List Byte) : List Char :=
  bs.flatMap fun b => [hexDigitChar (b.val / 16), hexDigitChar (b.val % 16)]

/-- Value of one hex digit, upper or lower case, as `hex::decode` accepts. -/
def hexCharVal (c : Char) : Option Nat :=
  if 48 ≤ c.toNat ∧ c.toNat ≤ 57 then some (c.toNat - 48)
  else if 97 ≤ c.toNat ∧ c.toNat ≤ 102 then some (c.toNat - 87)
  else if 65 ≤ c.toNat ∧ c.toNat ≤ 70 then some (c.toNat - 55)
  else none

/-- `hex::decode`, producing byte values: fails on odd length or a non-hex
character. -/
def hexDecodeL : List Char → Option (List Nat)
  | [] => some []
  | [_] => none
  | c1 :: c2 :: rest =>
    match hexCharVal c1, hexCharVal c2, hexDecodeL rest with
    | some h, some l, some bs => some ((h * 16 + l) :: bs)
    | _, _, _ => none

/-! ## Splitting (Rust `str::split(':').collect::<Vec<_>>()`) -/

/-- Rust's `split` on one character: splitting the empty string yields one
empty piece, and each separator occurrence starts a new piece. -/
def splitChar (sep : Char) : List Char → List (List Char)
  | [] => [[]]
  | c :: cs =>
    let r := splitChar sep cs
    if c = sep then [] :: r
    else
      match r with
      | h :: t => (c :: h) :: t
      | [] => [[c]]

/-! ## The signed playback token (src/handlers/common.rs lines 239–297,
src/handlers.rs lines 1525–1580) -/

/-- The ASCII Unit Separator used between the payload fields. -/
def US : Char := '\x1F'

/-- `format!("{}\x1F{}\x1F{}\x1F{}", video_id, expiration, ip, user_agent)`. -/
def payloadChars (videoId : String) (expiration : Nat) (ip ua : String) : List Char :=
  videoId.data ++ (US :: (natToChars expiration ++ (US :: (ip.data ++ (US :: ua.data)))))

/-- `generate_token` (identical in common.rs and handlers.rs): expiry is one
hour from now, and the token is `"{expiration}:{hex(mac)}"`. -/
def generate_token (mac : MacFun) (now : Nat) (videoId secret ip ua : String) : String :=
  let expiration := now + 3600
  let signature := hexEncodeL (mac secret (payloadChars videoId expiration ip ua))
  String.mk (natToChars expiration ++ ':' :: signature)

/-- The body of common.rs `verify_token` after `token.split(':')`: exactly two
parts, a parsable unexpired expiry, then the recomputed MAC bytes compared
with `==` against the hex-decoded signature bytes. -/
def verifyParts (mac : MacFun) (now : Nat) (videoId secret ip ua : String) :
    List (List Char) → Bool
  | [expirationStr, signature] =>
    match parseU64 expirationStr with
    | none => false
    | some expiration =>
      if now > expiration then false
      else
        match hexDecodeL signature with
        | some sigBytes =>
          decide ((mac secret (payloadChars videoId expiration ip ua)).map Fin.val = sigBytes)
        | none => false
  | _ => false

/-- `verify_token` from src/handlers/common.rs lines 261–297. -/
def verify_token (mac : MacFun) (now : Nat) (videoId : String) (token : String)
    (secret ip ua : String) : Bool :=
  verifyParts mac now videoId secret ip ua (splitChar ':' token.data)

/-- The body of handlers.rs `verify_token` after the split: the same checks,
but the final comparison is `expected_signature == signature` on the hex
strings. -/
def verifyPartsHandlers (mac : MacFun) (now : Nat) (videoId secret ip ua : String) :
    List (List Char) → Bool
  | [expirationStr, signature] =>
    match parseU64 expirationStr with
    | none => false
    | some expiration =>
      if now > expiration then false
      else
        decide (hexEncodeL (mac secret (payloadChars videoId expiration ip ua)) = signature)
  | _ => false

/-- `verify_token` from src/handlers.rs lines 1547–1580. -/
def verify_token_handlers (mac : MacFun) (now : Nat) (videoId : String) (token : String)
    (secret ip ua : String) : Bool :=
  verifyPartsHandlers mac now videoId secret ip ua (splitChar ':' token.data)

/-- The parse obligations `verify_token` imposes on the raw token before any
MAC comparison: two `:`-separated parts, a `u64`-parsable expiry and a
hex-decodable signature. -/
def wellFormedParts : List (List Char) → Bool
  | [e, s] => (parseU64 e).isSome && (hexDecodeL s).isSome
  | _ => false

/-- A token that passes `verify_token`'s parsing stage. -/
def tokenWellFormed (token : String) : Bool :=
  wellFormedParts (splitChar ':' token.data)

/-- Follows the claim's words, not the source: a token of the shape
`"digits:hex"` — a nonempty run of decimal digits, one `:`, and a nonempty
run of hex digits. -/
def specDigitsColonHex (token : String) : Bool :=
  match splitChar ':' token.data with
  | [e, s] =>
    !e.isEmpty && e.all (fun c => 48 ≤ c.toNat && c.toNat ≤ 57) &&
      !s.isEmpty && s.all (fun c => (hexCharVal c).isSome)
  | _ => false

/-- A small concrete MAC function used to instantiate witnesses: one byte
derived from the secret and payload lengths. -/
def macW : MacFun := fun secret payload =>
  [⟨(secret.length + payload.length) % 256, Nat.mod_lt _ (by omega)⟩]

/-- A constant concrete MAC function whose hex encoding is `"ab"`. -/
def macB : MacFun := fun _ _ => [⟨171, by omega⟩]

/-! ## Variant selection and the master playlist (src/video.rs) -/

structure VideoVariant where
  label : String
  height : Nat
  bitrate : String
deriving DecidableEq

/-- The fixed ladder built inside `get_variants_for_height`. -/
def allVariants : List VideoVariant :=
  [⟨"480p", 480, "1000k"⟩, ⟨"720p", 720, "2500k"⟩,
   ⟨"1080p", 1080, "5000k"⟩, ⟨"1440p", 1440, "8000k"⟩]

/-- src/video.rs lines 279–308: keep the ladder members at or below the
source height. -/
def get_variants_for_height (original_height : Nat) : List VideoVariant :=
  allVariants.filter fun v => v.height ≤ original_height

/-- The variant-selection stage of `encode_to_hls` (src/video.rs lines
340–348): with no suitable variant it bails out before producing any
output. -/
def encodeSelectVariants (sourceHeight : Nat) : Except String (List VideoVariant) :=
  let variants := get_variants_for_height sourceHeight
  if variants.isEmpty then
    Except.error ("No suitable variants for video height " ++ String.mk (natToChars sourceHeight))
  else Except.ok variants

/-- Rust's `trim_end_matches(c)`: removes every trailing occurrence. -/
def trimTrailing (c : Char) (l : List Char) : List Char :=
  (l.reverse.dropWhile fun x => x = c).reverse

/-- `variant.bitrate.trim_end_matches('k').parse::<u32>().unwrap_or(1000)`. -/
def bitrateNumK (s : String) : Nat := (parseU32 (trimTrailing 'k' s.data)).getD 1000

/-- `(((variant.height as f32) * 16.0) / 9.0) as u32`. The `as u32` cast
truncates; on every ladder height (480, 720, 1080, 1440) the f32 quotient
lies in the same unit interval as the exact rational, so the truncation
coincides with natural-number division. -/
def approxWidth (h : Nat) : Nat := h * 16 / 9

/-- One `#EXT-X-STREAM-INF` stanza plus the relative URI line, as
`encode_to_hls` appends per variant (src/video.rs lines 733–750). -/
def masterStanza (v : VideoVariant) : String :=
  "#EXT-X-STREAM-INF:BANDWIDTH=" ++ String.mk (natToChars (bitrateNumK v.bitrate * 1000))
    ++ ",RESOLUTION=" ++ String.mk (natToChars (approxWidth v.height)) ++ "x"
    ++ String.mk (natToChars v.height) ++ "\n" ++ v.label ++ "/index.m3u8\n"

/-- The master playlist `encode_to_hls` writes (src/video.rs lines 726–754). -/
def masterPlaylist (sourceHeight : Nat) : String :=
  "#EXTM3U\n#EXT-X-VERSION:3\n"
    ++ String.join ((get_variants_for_height sourceHeight).map masterStanza)

/-- Rounded division, for the claim's `round(height × 16 / 9)`. -/
def roundDiv (a b : Nat) : Nat := (a + b / 2) / b

/-- Follows the claim's words, not the source: BANDWIDTH is the numeric
bitrate (in k) times 1000, RESOLUTION is `round(height·16/9) × height`,
followed by the relative URI `{label}/index.m3u8`. -/
def specStanza (v : VideoVariant) : String :=
  "#EXT-X-STREAM-INF:BANDWIDTH=" ++ String.mk (natToChars (bitrateNumK v.bitrate * 1000))
    ++ ",RESOLUTION=" ++ String.mk (natToChars (roundDiv (v.height * 16) 9)) ++ "x"
    ++ String.mk (natToChars v.height) ++ "\n" ++ v.label ++ "/index.m3u8\n"

/-! ## Chunked uploads (src/handlers.rs lines 552–732)

The shared `HashMap<String, ChunkedUpload>` is a function map, the chunk
scratch files a function from (directory, chunk index) to bytes. -/

structure ChunkedUpload where
  file_name : String
  total_chunks : Nat
  received_chunks : List Bool
  temp_dir : String
deriving DecidableEq

abbrev UploadsMap := String → Option ChunkedUpload

abbrev DiskMap := String → Nat → List Byte

structure ChunkUploadResponse where
  upload_id : String
  chunk_index : Nat
  received : Bool
deriving DecidableEq

/-- `upload.received_chunks[chunk_index] = true`: `none` models the Rust
index-out-of-bounds panic when the index is not below the vector length. -/
def setReceived (l : List Bool) (i : Nat) : Option (List Bool) :=
  if i < l.length then some (l.set i true) else none

/-- `upload_chunk` (src/handlers.rs lines 552–640), restricted to the shared
state it touches: on an unknown uploadId it inserts a fresh record with a
`vec![false; total_chunks]` received vector and scratch directory
`chunked-{uploadId}`; it then writes the chunk file and marks the index
received. `none` is the panic outcome — there is no index or file-name
validation in the source. -/
def upload_chunk (uploads : UploadsMap) (disk : DiskMap) (uploadId : String)
    (chunkData : List Byte) (chunkIndex totalChunks : Nat) (fileName : String) :
    Option (UploadsMap × DiskMap × ChunkUploadResponse) :=
  let uploads1 : UploadsMap :=
    match uploads uploadId with
    | some _ => uploads
    | none => fun id =>
        if id = uploadId then
          some { file_name := fileName, total_chunks := totalChunks,
                 received_chunks := List.replicate totalChunks false,
                 temp_dir := "chunked-" ++ uploadId }
        else uploads id
  match uploads1 uploadId with
  | none => none
  | some cu =>
    let disk2 : DiskMap := fun d i =>
      if d = cu.temp_dir ∧ i = chunkIndex then chunkData else disk d i
    match setReceived cu.received_chunks chunkIndex with
    | none => none
    | some rc =>
      let uploads2 : UploadsMap := fun id =>
        if id = uploadId then some { cu with received_chunks := rc } else uploads1 id
      some (uploads2, disk2, ⟨uploadId, chunkIndex, true⟩)

inductive FinalizeError where
  | notFound (msg : String)
  | badRequest (msg : String)
deriving DecidableEq

/-- `finalize_chunked_upload` (src/handlers.rs lines 643–732), restricted to
the uploads map and the assembled bytes: the record is removed from the map
before the completeness check, an incomplete vector yields 400, and on
success the chunk files `chunk_{i:06}` are concatenated for
`i = 0, …, total_chunks − 1` in ascending order. -/
def finalize_chunked_upload (uploads : UploadsMap) (disk : DiskMap) (uploadId : String) :
    UploadsMap × Except FinalizeError (List Byte) :=
  match uploads uploadId with
  | none =>
    (uploads, Except.error (FinalizeError.notFound "Upload ID not found or already finalized"))
  | some cu =>
    let uploads2 : UploadsMap := fun id => if id = uploadId then none else uploads id
    if !cu.received_chunks.all (fun r => r) then
      (uploads2, Except.error (FinalizeError.badRequest "Not all chunks have been received"))
    else
      (uploads2, Except.ok ((List.range cu.total_chunks).flatMap fun i => disk cu.temp_dir i))

/-- ASCII bytes of a string, for concrete chunk payloads. -/
def asciiBytes (s : String) : List Byte :=
  s.data.map fun c => ⟨c.toNat % 256, Nat.mod_lt _ (by omega)⟩

/-- Concrete state: uploadId `"u"`, three declared chunks, only index 0
received. -/
def uploadsU3Partial : UploadsMap := fun id =>
  if id = "u" then some ⟨"f", 3, [true, false, false], "chunked-u"⟩ else none

/-- Concrete state: uploadId `"u"`, all three chunks received. -/
def uploadsU3Full : UploadsMap := fun id =>
  if id = "u" then some ⟨"f", 3, [true, true, true], "chunked-u"⟩ else none

/-- Concrete scratch disk holding chunks `b"AAA"`, `b"BB"`, `b"C"`. -/
def diskABC : DiskMap := fun d i =>
  if d = "chunked-u" then
    if i = 0 then asciiBytes "AAA"
    else if i = 1 then asciiBytes "BB"
    else if i = 2 then asciiBytes "C"
    else []
  else []

def emptyDisk : DiskMap := fun _ _ => []

/-! ## Progress registry (src/handlers.rs lines 43–59, src/types.rs) -/

structure UploadResponse where
  player_url : String
  upload_id : String
deriving DecidableEq

structure ProgressUpdate where
  stage : String
  current_chunk : Nat
  total_chunks : Nat
  percentage : Nat
  details : Option String
  status : String
  result : Option UploadResponse
  error : Option String
  video_name : Option String
  created_at : Nat
deriving DecidableEq

abbrev ProgressMap := String → Option ProgressUpdate

/-- `update_progress` (src/handlers.rs lines 52–59): preserve the original
`created_at` when an entry exists, then insert. -/
def update_progress (progress_map : ProgressMap) (upload_id : String)
    (update : ProgressUpdate) : ProgressMap :=
  let u :=
    match progress_map upload_id with
    | some existing => { update with created_at := existing.created_at }
    | none => update
  fun id => if id = upload_id then some u else progress_map id

/-- Follows the claim's words, not the source: on a fresh uploadId an
incoming `created_at` of zero is replaced by the current wall clock. -/
def spec_upsert (nowMillis : Nat) (progress_map : ProgressMap) (upload_id : String)
    (update : ProgressUpdate) : ProgressMap :=
  let u :=
    match progress_map upload_id with
    | some existing => { update with created_at := existing.created_at }
    | none =>
      if update.created_at = 0 then { update with created_at := nowMillis } else update
  fun id => if id = upload_id then some u else progress_map id

/-- A concrete entry with `created_at = 0`, as the pipeline stages send. -/
def sampleUpd : ProgressUpdate :=
  { stage := "Receiving chunks", current_chunk := 0, total_chunks := 1, percentage := 0,
    details := none, status := "processing", result := none, error := none,
    video_name := none, created_at := 0 }

/-! ## Presence tracker (src/handlers/analytics.rs)

`active_viewers : HashMap<String, HashMap<String, Instant>>` becomes an
association list of association lists; `Instant` becomes seconds as `Nat`
(`Instant::duration_since` saturates at zero, as does `Nat` subtraction). -/

abbrev Viewers := List (String × List (String × Nat))

def upsertAssoc (l : List (String × Nat)) (k : String) (t : Nat) : List (String × Nat) :=
  match l with
  | [] => [(k, t)]
  | (k2, t2) :: rest => if k2 = k then (k, t) :: rest else (k2, t2) :: upsertAssoc rest k t

def upsertVideo (viewers : Viewers) (videoId viewerId : String) (now : Nat) : Viewers :=
  match viewers with
  | [] => [(videoId, [(viewerId, now)])]
  | (v, inner) :: rest =>
    if v = videoId then (v, upsertAssoc inner viewerId now) :: rest
    else (v, inner) :: upsertVideo rest videoId viewerId now

/-- `heartbeat` (src/handlers/analytics.rs lines 19–47): upsert
`viewers[videoId]["{ip}-{ua}"] = now`. -/
def heartbeat (viewers : Viewers) (videoId ip ua : String) (now : Nat) : Viewers :=
  upsertVideo viewers videoId (ip ++ "-" ++ ua) now

/-- One pass of the realtime-analytics loop (src/handlers/analytics.rs lines
87–101): retain viewers seen strictly less than 30 seconds ago, record a
count for each video whose retained inner map is nonempty, drop emptied
videos. -/
def snapshotAndEvict (now : Nat) (viewers : Viewers) : Viewers × List (String × Nat) :=
  let retained := viewers.map fun p => (p.1, p.2.filter fun q => now - q.2 < 30)
  let kept := retained.filter fun p => !p.2.isEmpty
  (kept, kept.map fun p => (p.1, p.2.length))

/-! ### Supporting lemmas -/

theorem digit_char_toNat {d : Nat} (h : d < 10) : (Char.ofNat (48 + d)).toNat = 48 + d := by
  interval_cases d <;> decide

theorem natToCharsAux_eq_of_lt :
    ∀ {fuel fuel₂ n : Nat}, n < fuel → n < fuel₂ →
      natToCharsAux fuel n = natToCharsAux fuel₂ n := by
  intro fuel
  induction fuel with
  | zero => omega
  | succ f ih =>
    intro fuel₂ n h1 h2
    cases fuel₂ with
    | zero => omega
    | succ f₂ =>
      rw [natToCharsAux, natToCharsAux]
      split
      · rfl
      · have hdiv : n / 10 < n := Nat.div_lt_self (by omega) (by omega)
        exact congrArg (fun l => l ++ [Char.ofNat (48 + n % 10)]) (ih (by omega) (by omega))

/-- The recursive unfolding of `natToChars`, independent of the fuel. -/
theorem natToChars_eq (n : Nat) :
    natToChars n
      = if n < 10 then [Char.ofNat (48 + n)]
        else natToChars (n / 10) ++ [Char.ofNat (48 + n % 10)] := by
  rw [natToChars, natToCharsAux]
  split
  · rfl
  · have hdiv : n / 10 < n := Nat.div_lt_self (by omega) (by omega)
    rw [natToChars, natToCharsAux_eq_of_lt (by omega) (Nat.lt_succ_self _)]

theorem natToChars_digits {n : Nat} {c : Char} (hc : c ∈ natToChars n) :
    48 ≤ c.toNat ∧ c.toNat ≤ 57 := by
  induction n using Nat.strong_induction_on with
  | _ n ih =>
    rw [natToChars_eq] at hc
    split at hc
    · simp only [List.mem_singleton] at hc
      subst hc
      rw [digit_char_toNat (by omega)]
      omega
    · rcases List.mem_append.mp hc with h1 | h1
      · exact ih _ (Nat.div_lt_self (by omega) (by omega)) h1
      · simp only [List.mem_singleton] at h1
        subst h1
        rw [digit_char_toNat (Nat.mod_lt _ (by omega))]
        omega

theorem natToChars_ne_nil (n : Nat) : natToChars n ≠ [] := by
  rw [natToChars_eq]
  split <;> simp

theorem colon_not_mem_natToChars (n : Nat) : ':' ∉ natToChars n := by
  intro h
  have h1 := natToChars_digits h
  have h2 : (':').toNat = 58 := by decide
  omega

theorem us_not_mem_natToChars (n : Nat) : US ∉ natToChars n := by
  intro h
  have h1 := natToChars_digits h
  have h2 : US.toNat = 31 := by decide
  omega

theorem hexDigitChar_spec (n : Nat) (h : n < 16) :
    (48 ≤ (hexDigitChar n).toNat ∧ (hexDigitChar n).toNat ≤ 57) ∨
      (97 ≤ (hexDigitChar n).toNat ∧ (hexDigitChar n).toNat ≤ 102) := by
  interval_cases n <;> decide

theorem hexEncodeL_chars {bs : List Byte} {c : Char} (hc : c ∈ hexEncodeL bs) :
    (48 ≤ c.toNat ∧ c.toNat ≤ 57) ∨ (97 ≤ c.toNat ∧ c.toNat ≤ 102) := by
  simp only [hexEncodeL, List.mem_flatMap] at hc
  obtain ⟨b, _, hb⟩ := hc
  have h1 : b.val / 16 < 16 := Nat.div_lt_of_lt_mul (by omega)
  have h2 : b.val % 16 < 16 := Nat.mod_lt _ (by omega)
  simp only [List.mem_cons, List.not_mem_nil, or_false] at hb
  rcases hb with h | h
  · subst h; exact hexDigitChar_spec _ h1
  · subst h; exact hexDigitChar_spec _ h2

theorem colon_not_mem_hexEncodeL (bs : List Byte) : ':' ∉ hexEncodeL bs := by
  intro h
  have h1 := hexEncodeL_chars h
  have h2 : (':').toNat = 58 := by decide
  omega

theorem hexCharVal_hexDigitChar {n : Nat} (h : n < 16) :
    hexCharVal (hexDigitChar n) = some n := by
  interval_cases n <;> rfl

theorem hexDecodeL_hexEncodeL (bs : List Byte) :
    hexDecodeL (hexEncodeL bs) = some (bs.map Fin.val) := by
  induction bs with
  | nil => rfl
  | cons b t ih =>
    have h1 : b.val / 16 < 16 := Nat.div_lt_of_lt_mul (by omega)
    have h2 : b.val % 16 < 16 := Nat.mod_lt _ (by omega)
    show hexDecodeL (hexDigitChar (b.val / 16) :: hexDigitChar (b.val % 16) :: hexEncodeL t) = _
    rw [hexDecodeL, hexCharVal_hexDigitChar h1, hexCharVal_hexDigitChar h2, ih]
    simp only [List.map_cons, Option.some.injEq, List.cons.injEq, and_true]
    omega

theorem splitChar_ne_nil (sep : Char) (cs : List Char) : splitChar sep cs ≠ [] := by
  cases cs with
  | nil => simp [splitChar]
  | cons c t =>
    rw [splitChar]
    split
    · simp
    · split <;> simp_all

theorem splitChar_of_not_mem {sep : Char} {cs : List Char} (h : sep ∉ cs) :
    splitChar sep cs = [cs] := by
  induction cs with
  | nil => rfl
  | cons c t ih =>
    rw [splitChar]
    have hc : c ≠ sep := fun hceq => h (hceq ▸ List.mem_cons_self c t)
    rw [if_neg hc, ih (fun hm => h (List.mem_cons_of_mem c hm))]

theorem splitChar_append {sep : Char} {a : List Char} (b : List Char) (ha : sep ∉ a) :
    splitChar sep (a ++ sep :: b) = a :: splitChar sep b := by
  induction a with
  | nil => simp [splitChar]
  | cons c t ih =>
    have hc : c ≠ sep := fun hceq => ha (hceq ▸ List.mem_cons_self c t)
    have ht : sep ∉ t := fun hm => ha (List.mem_cons_of_mem c hm)
    rw [List.cons_append, splitChar, if_neg hc, ih ht]

theorem splitChar_pair {sep : Char} {a b : List Char} (ha : sep ∉ a) (hb : sep ∉ b) :
    splitChar sep (a ++ sep :: b) = [a, b] := by
  rw [splitChar_append b ha, splitChar_of_not_mem hb]

theorem digitVal_digit {d : Nat} (h : d < 10) : digitVal (Char.ofNat (48 + d)) = some d := by
  interval_cases d <;> decide

theorem foldl_digits_natToChars (n : Nat) :
    ∀ a : Nat,
      (natToChars n).foldl (fun acc c => acc.bind fun v => (digitVal c).map fun d => v * 10 + d)
          (some a)
        = some (a * 10 ^ (natToChars n).length + n) := by
  induction n using Nat.strong_induction_on with
  | _ n ih =>
    intro a
    rw [natToChars_eq]
    split
    · simp only [List.foldl_cons, List.foldl_nil, Option.bind_eq_bind, Option.some_bind,
        digitVal_digit (by omega : n < 10), Option.map_some', List.length_singleton, pow_one]
    · rw [List.foldl_append, ih _ (Nat.div_lt_self (by omega) (by omega)), List.length_append]
      have hd : digitVal (Char.ofNat (48 + n % 10)) = some (n % 10) :=
        digitVal_digit (Nat.mod_lt _ (by omega))
      simp only [List.foldl_cons, List.foldl_nil, Option.bind_eq_bind, Option.some_bind, hd,
        Option.map_some', List.length_singleton, Option.some.injEq]
      have heq : (a * 10 ^ (natToChars (n / 10)).length + n / 10) * 10 + n % 10
          = a * (10 ^ (natToChars (n / 10)).length * 10) + (n / 10 * 10 + n % 10) := by ring
      rw [heq, pow_succ]
      omega

theorem digitsVal_natToChars (n : Nat) : digitsVal (natToChars n) = some n := by
  rw [digitsVal, if_neg (by simp [natToChars_ne_nil n]), foldl_digits_natToChars]
  simp

theorem stripPlus_natToChars (n : Nat) : stripPlus (natToChars n) = natToChars n := by
  cases hc : natToChars n with
  | nil => rfl
  | cons c t =>
    have hd : c ∈ natToChars n := by rw [hc]; exact List.mem_cons_self c t
    have h1 := natToChars_digits hd
    have h2 : ('+').toNat = 43 := by decide
    rw [stripPlus, if_neg]
    intro heq
    rw [heq] at h1
    omega

theorem parseU64_natToChars {n : Nat} (h : n < 2 ^ 64) : parseU64 (natToChars n) = some n := by
  rw [parseU64, parseUInt, stripPlus_natToChars, digitsVal_natToChars]
  show (if n < 2 ^ 64 then some n else none) = some n
  rw [if_pos h]

/-- Splitting off a separator-free prefix is unambiguous. -/
theorem sep_cons_inj {sep : Char} {a a' r r' : List Char} (ha : sep ∉ a) (ha' : sep ∉ a')
    (h : a ++ sep :: r = a' ++ sep :: r') : a = a' ∧ r = r' := by
  induction a generalizing a' with
  | nil =>
    cases a' with
    | nil => simpa using h
    | cons c t =>
      simp only [List.nil_append, List.cons_append, List.cons.injEq] at h
      exact absurd h.1 (fun heq => ha' (heq ▸ List.mem_cons_self c t))
  | cons c t ih =>
    cases a' with
    | nil =>
      simp only [List.nil_append, List.cons_append, List.cons.injEq] at h
      exact absurd h.1.symm (fun heq => ha (heq ▸ List.mem_cons_self c t))
    | cons c2 t2 =>
      simp only [List.cons_append, List.cons.injEq] at h
      have ht : sep ∉ t := fun hm => ha (List.mem_cons_of_mem c hm)
      have ht2 : sep ∉ t2 := fun hm => ha' (List.mem_cons_of_mem c2 hm)
      obtain ⟨h1, h2⟩ := ih ht ht2 h.2
      exact ⟨by rw [h.1, h1], h2⟩

theorem string_data_inj {s t : String} (h : s.data = t.data) : s = t := by
  cases s
  cases t
  exact congrArg String.mk (by simpa using h)

/-- The `0x1F`-joined payload determines its fields when the variable fields
are delimiter-free (the expiry is rendered as digits and never contains it). -/
theorem payloadChars_inj {vid ip ua vid₂ ip₂ ua₂ : String} (e : Nat)
    (hv : US ∉ vid.data) (hi : US ∉ ip.data) (hv₂ : US ∉ vid₂.data) (hi₂ : US ∉ ip₂.data)
    (h : payloadChars vid e ip ua = payloadChars vid₂ e ip₂ ua₂) :
    vid = vid₂ ∧ ip = ip₂ ∧ ua = ua₂ := by
  unfold payloadChars at h
  obtain ⟨h1, h⟩ := sep_cons_inj hv hv₂ h
  obtain ⟨-, h⟩ := sep_cons_inj (us_not_mem_natToChars e) (us_not_mem_natToChars e) h
  obtain ⟨h2, h3⟩ := sep_cons_inj hi hi₂ h
  exact ⟨string_data_inj h1, string_data_inj h2, string_data_inj h3⟩

theorem generate_token_split (mac : MacFun) (now : Nat) (videoId secret ip ua : String) :
    splitChar ':' (generate_token mac now videoId secret ip ua).data
      = [natToChars (now + 3600),
         hexEncodeL (mac secret (payloadChars videoId (now + 3600) ip ua))] :=
  splitChar_pair (colon_not_mem_natToChars _) (colon_not_mem_hexEncodeL _)

theorem verifyParts_pair (mac : MacFun) (now : Nat) (videoId secret ip ua : String)
    (e s : List Char) :
    verifyParts mac now videoId secret ip ua [e, s]
      = match parseU64 e with
        | none => false
        | some expiration =>
          if now > expiration then false
          else
            match hexDecodeL s with
            | some sigBytes =>
              decide ((mac secret (payloadChars videoId expiration ip ua)).map Fin.val = sigBytes)
            | none => false := rfl

/-- C1: verifying a token immediately after issuing it with the same videoId,
clientIP, userAgent and secret succeeds at any clock reading earlier than
issue time + 3600 seconds (the expiry must fit a `u64`, as it always does for
a wall clock). -/
theorem token_roundtrip (mac : MacFun) (now_i now_v : Nat) (videoId secret ip ua : String)
    (hrange : now_i + 3600 < 2 ^ 64) (hclock : now_v < now_i + 3600) :
    verify_token mac now_v videoId (generate_token mac now_i videoId secret ip ua) secret ip ua
      = true := by
  rw [verify_token, generate_token_split, verifyParts_pair, parseU64_natToChars hrange]
  show (if now_v > now_i + 3600 then false
        else
          match hexDecodeL (hexEncodeL (mac secret (payloadChars videoId (now_i + 3600) ip ua))) with
          | some sigBytes =>
            decide ((mac secret (payloadChars videoId (now_i + 3600) ip ua)).map Fin.val = sigBytes)
          | none => false) = true
  rw [if_neg (by omega), hexDecodeL_hexEncodeL]
  simp

/-- C1 witness at a concrete instant and inputs. -/
theorem token_roundtrip_witness :
    verify_token macW 100 "v" (generate_token macW 0 "v" "s" "1.2.3.4" "UA") "s" "1.2.3.4" "UA"
      = true :=
  token_roundtrip macW 0 100 "v" "s" "1.2.3.4" "UA" (by decide) (by decide)

theorem verifyParts_of_not_wellFormed (mac : MacFun) (now : Nat) (videoId secret ip ua : String)
    (parts : List (List Char)) (h : wellFormedParts parts = false) :
    verifyParts mac now videoId secret ip ua parts = false := by
  match parts with
  | [] => rfl
  | [_] => rfl
  | [e, s] =>
    rw [wellFormedParts] at h
    rw [verifyParts_pair]
    cases hp : parseU64 e with
    | none => rfl
    | some expiration =>
      rw [hp] at h
      cases hd : hexDecodeL s with
      | none =>
        show (if now > expiration then false else false) = false
        split <;> rfl
      | some bs =>
        rw [hd] at h
        simp at h
  | _ :: _ :: _ :: _ => rfl

/-- C2 (amended): a freshly issued token is rejected whenever the clock has
passed its expiry, or whenever the verification inputs differ from the issue
inputs, provided the variable fields are free of the `0x1F` delimiter and the
MAC does not collide on the two distinct (secret, payload) pairs; and any
token failing `verify_token`'s parse stage (two `:`-separated parts, a
`u64` expiry numeral with Rust's optional `+` sign, decodable hex) is
rejected. -/
theorem token_verify_rejects :
    (∀ (mac : MacFun) (now_i now_v : Nat) (vid ip ua secret vid₂ ip₂ ua₂ secret₂ : String),
      now_i + 3600 < 2 ^ 64 →
      (now_v > now_i + 3600 ∨
        (US ∉ vid.data ∧ US ∉ ip.data ∧ US ∉ vid₂.data ∧ US ∉ ip₂.data ∧
          (vid, ip, ua, secret) ≠ (vid₂, ip₂, ua₂, secret₂) ∧
          (mac secret₂ (payloadChars vid₂ (now_i + 3600) ip₂ ua₂)
              = mac secret (payloadChars vid (now_i + 3600) ip ua) →
            secret₂ = secret ∧
              payloadChars vid₂ (now_i + 3600) ip₂ ua₂
                = payloadChars vid (now_i + 3600) ip ua))) →
      verify_token mac now_v vid₂ (generate_token mac now_i vid secret ip ua) secret₂ ip₂ ua₂
        = false)
    ∧ ∀ (mac : MacFun) (now : Nat) (vid secret ip ua : String) (token : String),
        tokenWellFormed token = false →
        verify_token mac now vid token secret ip ua = false := by
  constructor
  · intro mac now_i now_v vid ip ua secret vid₂ ip₂ ua₂ secret₂ hrange hcase
    rw [verify_token, generate_token_split, verifyParts_pair, parseU64_natToChars hrange]
    show (if now_v > now_i + 3600 then false
          else
            match hexDecodeL (hexEncodeL (mac secret (payloadChars vid (now_i + 3600) ip ua))) with
            | some sigBytes =>
              decide ((mac secret₂ (payloadChars vid₂ (now_i + 3600) ip₂ ua₂)).map Fin.val
                = sigBytes)
            | none => false) = false
    rcases hcase with hexp | ⟨hv, hi, hv₂, hi₂, hne, hcoll⟩
    · rw [if_pos hexp]
    · by_cases hnv : now_v > now_i + 3600
      · rw [if_pos hnv]
      · rw [if_neg hnv, hexDecodeL_hexEncodeL]
        show decide _ = false
        rw [decide_eq_false_iff_not]
        intro heq
        have hmac : mac secret₂ (payloadChars vid₂ (now_i + 3600) ip₂ ua₂)
            = mac secret (payloadChars vid (now_i + 3600) ip ua) :=
          List.map_injective_iff.mpr Fin.val_injective heq
        obtain ⟨hsec, hpay⟩ := hcoll hmac
        obtain ⟨h1, h2, h3⟩ := payloadChars_inj _ hv₂ hi₂ hv hi hpay
        exact hne (by rw [h1, h2, h3, hsec])
  · intro mac now vid secret ip ua token h
    exact verifyParts_of_not_wellFormed mac now vid secret ip ua _ h

/-- C2 witness: verification after the expiry rejects the token. -/
theorem token_verify_rejects_witness :
    verify_token macW 4000 "v" (generate_token macW 0 "v" "s" "1.2.3.4" "UA") "s" "1.2.3.4" "UA"
      = false :=
  token_verify_rejects.1 macW 0 4000 "v" "1.2.3.4" "UA" "s" "v" "1.2.3.4" "UA" "s" (by decide)
    (Or.inl (by decide))

/-- C2 counterexample against the claim as stated: a token issued for
(ip = "x␟y", ua = "z") verifies for the different pair (ip = "x",
ua = "y␟z") because the `0x1F`-joined payloads coincide; and a token with a
`+`-signed expiry — which does not parse as `"digits:hex"` — still verifies,
since Rust's `u64` parse accepts the sign. -/
theorem token_verify_rejects_counterexample :
    verify_token macW 0 "v" (generate_token macW 0 "v" "s" (String.mk ['x', US, 'y']) "z")
        "s" "x" (String.mk ['y', US, 'z']) = true
    ∧ specDigitsColonHex (String.mk ('+' :: (generate_token macW 0 "v" "s" "ip" "ua").data))
        = false
    ∧ verify_token macW 0 "v" (String.mk ('+' :: (generate_token macW 0 "v" "s" "ip" "ua").data))
        "s" "ip" "ua" = true := by
  refine ⟨?_, ?_, ?_⟩ <;> decide

/-- C3: neither implementation of the MAC comparison matches the spec. The
handlers.rs `verify_token` compares the lowercase hex *strings* (it rejects
an uppercase rendering of the correct MAC that common.rs accepts after
decoding to raw bytes), and both use Rust's short-circuiting `==` rather
than a constant-time routine. -/
theorem mac_comparison_not_constant_time :
    verify_token_handlers macB 0 "v" (String.mk (natToChars 3600 ++ [':', 'A', 'B'])) "s" "ip" "ua"
        = false
    ∧ verify_token macB 0 "v" (String.mk (natToChars 3600 ++ [':', 'A', 'B'])) "s" "ip" "ua"
        = true
    ∧ verify_token_handlers macB 0 "v" (String.mk (natToChars 3600 ++ [':', 'a', 'b'])) "s" "ip" "ua"
        = true := by
  refine ⟨?_, ?_, ?_⟩ <;> decide

/-- C4: the selected variants are exactly the ladder members whose height is
at most the source height, kept in ladder order; height 480 yields only 480p,
height 720 yields 480p and 720p, and below 480 the selection is empty and
`encode_to_hls` fails before producing output. -/
theorem variant_selection :
    (∀ (h : Nat) (v : VideoVariant),
        v ∈ get_variants_for_height h ↔ v ∈ allVariants ∧ v.height ≤ h)
    ∧ (∀ h : Nat, (get_variants_for_height h).Sublist allVariants)
    ∧ get_variants_for_height 480 = [⟨"480p", 480, "1000k"⟩]
    ∧ get_variants_for_height 720 = [⟨"480p", 480, "1000k"⟩, ⟨"720p", 720, "2500k"⟩]
    ∧ ∀ h : Nat, h < 480 →
        get_variants_for_height h = []
        ∧ encodeSelectVariants h
            = Except.error ("No suitable variants for video height " ++ String.mk (natToChars h)) := by
  refine ⟨?_, ?_, by decide, by decide, ?_⟩
  · intro h v
    simp [get_variants_for_height, List.mem_filter]
  · intro h
    exact List.filter_sublist _
  · intro h hlt
    have hempty : get_variants_for_height h = [] := by
      rw [List.eq_nil_iff_forall_not_mem]
      intro v hv
      have h1 := List.mem_filter.mp hv
      have h2 : v.height ≤ h := by simpa using h1.2
      have h3 : 480 ≤ v.height := by
        rcases (by simpa [allVariants] using h1.1 : v = _ ∨ v = _ ∨ v = _ ∨ v = _) with
          rfl | rfl | rfl | rfl <;> simp
      omega
    refine ⟨hempty, ?_⟩
    simp [encodeSelectVariants, hempty]

/-- C4 witness at the spec's boundary height 479. -/
theorem variant_selection_witness :
    get_variants_for_height 479 = []
    ∧ encodeSelectVariants 479
        = Except.error ("No suitable variants for video height " ++ String.mk (natToChars 479)) :=
  variant_selection.2.2.2.2 479 (by decide)

/-- C9: the master playlist is exactly the `#EXTM3U`/`#EXT-X-VERSION:3`
header followed by, per selected variant in ladder order, one stanza with
BANDWIDTH = numeric bitrate × 1000 and RESOLUTION = round(height·16/9) ×
height and the relative URI `{label}/index.m3u8` — and nothing else. -/
theorem master_playlist_contents :
    ∀ h : Nat,
      masterPlaylist h
        = "#EXTM3U\n#EXT-X-VERSION:3\n"
            ++ String.join ((get_variants_for_height h).map specStanza) := by
  intro h
  unfold masterPlaylist
  congr 1
  refine congrArg String.join (List.map_congr_left fun v hv => ?_)
  have h1 := (List.mem_filter.mp hv).1
  rcases (by simpa [allVariants] using h1 : v = _ ∨ v = _ ∨ v = _ ∨ v = _) with
    rfl | rfl | rfl | rfl <;> decide

theorem all_id_eq_false_of_mem {l : List Bool} (h : false ∈ l) :
    l.all (fun r => r) = false := by
  cases hb : l.all fun r => r
  · rfl
  · have := List.all_eq_true.mp hb false h
    simp at this

/-- C5: finalize fails with the incomplete-upload error whenever a received
bit is false; a successful finalize implies the vector was all-true and
returns the chunks concatenated in ascending index order; chunks `b"AAA"`,
`b"BB"`, `b"C"` assemble to exactly `b"AAABBC"`. -/
theorem finalize_assembles :
    (∀ (uploads : UploadsMap) (disk : DiskMap) (id : String) (cu : ChunkedUpload),
        uploads id = some cu → false ∈ cu.received_chunks →
        (finalize_chunked_upload uploads disk id).2
          = Except.error (FinalizeError.badRequest "Not all chunks have been received"))
    ∧ (∀ (uploads : UploadsMap) (disk : DiskMap) (id : String) (cu : ChunkedUpload)
          (out : List Byte),
        uploads id = some cu →
        (finalize_chunked_upload uploads disk id).2 = Except.ok out →
        (∀ r ∈ cu.received_chunks, r = true)
          ∧ out = (List.range cu.total_chunks).flatMap fun i => disk cu.temp_dir i)
    ∧ (finalize_chunked_upload uploadsU3Full diskABC "u").2 = Except.ok (asciiBytes "AAABBC") := by
  refine ⟨?_, ?_, rfl⟩
  · intro uploads disk id cu hcu hfalse
    simp [finalize_chunked_upload, hcu, all_id_eq_false_of_mem hfalse]
  · intro uploads disk id cu out hcu hok
    by_cases hall : cu.received_chunks.all (fun r => r) = true
    · refine ⟨fun r hr => List.all_eq_true.mp hall r hr, ?_⟩
      simp [finalize_chunked_upload, hcu, hall] at hok
      exact hok.symm
    · rw [Bool.not_eq_true] at hall
      simp [finalize_chunked_upload, hcu, hall] at hok

/-- C5 witness: a partial vector is refused with the incomplete error. -/
theorem finalize_assembles_witness :
    (finalize_chunked_upload uploadsU3Partial diskABC "u").2
      = Except.error (FinalizeError.badRequest "Not all chunks have been received") :=
  finalize_assembles.1 uploadsU3Partial diskABC "u" ⟨"f", 3, [true, false, false], "chunked-u"⟩
    (by decide) (by decide)

/-- C10: the record is removed before the completeness check, so an
incomplete finalize both returns the 400 error and deletes the record, and
an immediately repeated finalize fails with the 404 not-found error. -/
theorem finalize_incomplete_removes_record :
    ∀ (uploads : UploadsMap) (disk : DiskMap) (id : String) (cu : ChunkedUpload),
      uploads id = some cu → false ∈ cu.received_chunks →
      (finalize_chunked_upload uploads disk id).2
          = Except.error (FinalizeError.badRequest "Not all chunks have been received")
        ∧ (finalize_chunked_upload uploads disk id).1 id = none
        ∧ (finalize_chunked_upload ((finalize_chunked_upload uploads disk id).1) disk id).2
            = Except.error (FinalizeError.notFound "Upload ID not found or already finalized") := by
  intro uploads disk id cu hcu hfalse
  have hall := all_id_eq_false_of_mem hfalse
  refine ⟨?_, ?_, ?_⟩ <;> simp [finalize_chunked_upload, hcu, hall]

/-- C10 witness on a concrete partial upload. -/
theorem finalize_incomplete_removes_record_witness :
    (finalize_chunked_upload uploadsU3Partial emptyDisk "u").2
        = Except.error (FinalizeError.badRequest "Not all chunks have been received")
      ∧ (finalize_chunked_upload uploadsU3Partial emptyDisk "u").1 "u" = none
      ∧ (finalize_chunked_upload ((finalize_chunked_upload uploadsU3Partial emptyDisk "u").1)
            emptyDisk "u").2
          = Except.error (FinalizeError.notFound "Upload ID not found or already finalized") :=
  finalize_incomplete_removes_record uploadsU3Partial emptyDisk "u"
    ⟨"f", 3, [true, false, false], "chunked-u"⟩ (by decide) (by decide)

/-- C6: the source performs no index or file-name validation. A chunk whose
index equals the declared totalChunks drives `received_chunks[chunk_index]`
out of bounds — a panic, modelled as `none` — and a chunk with a mismatched
fileName is accepted and marks its bit, rather than either being rejected
with a ProtocolViolation. -/
theorem chunk_protocol_no_rejection :
    upload_chunk uploadsU3Partial emptyDisk "u" [] 3 3 "f" = none
    ∧ (upload_chunk uploadsU3Partial emptyDisk "u" [] 1 3 "g").isSome = true
    ∧ ((upload_chunk uploadsU3Partial emptyDisk "u" [] 1 3 "g").map
        fun r => r.2.2) = some ⟨"u", 1, true⟩
    ∧ ((upload_chunk uploadsU3Partial emptyDisk "u" [] 1 3 "g").map
        fun r => (r.1 "u").map fun cu => cu.received_chunks) = some (some [true, true, false]) :=
  ⟨rfl, by decide, by decide, by decide⟩

/-- C7 (amended): an upsert over an existing entry always keeps the prior
`created_at` — across any sequence of upserts — and an upsert for a fresh
uploadId stores the incoming entry unchanged (a zero `created_at` included;
no wall-clock defaulting exists in the source). -/
theorem update_progress_created_at :
    (∀ (m : ProgressMap) (id : String) (upd e : ProgressUpdate),
        m id = some e →
        update_progress m id upd id = some { upd with created_at := e.created_at })
    ∧ (∀ (m : ProgressMap) (id : String) (e : ProgressUpdate) (upds : List ProgressUpdate),
        m id = some e →
        ((upds.foldl (fun acc u => update_progress acc id u) m) id).map (fun p => p.created_at)
          = some e.created_at)
    ∧ (∀ (m : ProgressMap) (id : String) (upd : ProgressUpdate),
        m id = none → update_progress m id upd id = some upd) := by
  refine ⟨?_, ?_, ?_⟩
  · intro m id upd e hme
    simp [update_progress, hme]
  · intro m id e upds
    induction upds generalizing m e with
    | nil => intro hme; simp [hme]
    | cons u t ih =>
      intro hme
      rw [List.foldl_cons]
      have hstep : update_progress m id u id = some { u with created_at := e.created_at } := by
        simp [update_progress, hme]
      have := ih (update_progress m id u) { u with created_at := e.created_at } hstep
      simpa using this
  · intro m id upd hme
    simp [update_progress, hme]

/-- C7 witness: a later upsert with a nonzero incoming `created_at` keeps the
existing entry's value. -/
theorem update_progress_created_at_witness :
    update_progress (fun id => if id = "u" then some sampleUpd else none) "u"
        { sampleUpd with created_at := 55 } "u"
      = some sampleUpd := by
  rw [update_progress_created_at.1 (fun id => if id = "u" then some sampleUpd else none) "u"
      { sampleUpd with created_at := 55 } sampleUpd (by decide)]

/-- C7 counterexample against the claim as stated: on a fresh uploadId an
incoming `created_at` of zero is stored as zero — `update_progress` never
consults a clock — while the claim's upsert would store the wall-clock
reading (1234 here). -/
theorem update_progress_no_default :
    update_progress (fun _ => none) "u" sampleUpd "u" = some sampleUpd
    ∧ sampleUpd.created_at = 0
    ∧ update_progress (fun _ => none) "u" sampleUpd "u"
        ≠ spec_upsert 1234 (fun _ => none) "u" sampleUpd "u" :=
  ⟨by decide, by decide, by decide⟩

/-- C8 (amended): one eviction pass keeps exactly the viewers whose last
heartbeat is strictly less than 30 seconds old (so one aged exactly 30 s is
evicted), drops videos whose inner map empties, and reports each surviving
video's live count; a heartbeat at t=0 is counted at t=20 and gone, with its
video entry, at t=31. -/
theorem presence_eviction :
    (∀ (now : Nat) (viewers : Viewers),
        (snapshotAndEvict now viewers).2
          = (viewers.map fun p => (p.1, (p.2.filter fun q => now - q.2 < 30).length)).filter
              fun p => p.2 ≠ 0)
    ∧ (∀ (now : Nat) (viewers : Viewers) (vid : String) (inner : List (String × Nat)),
        (vid, inner) ∈ (snapshotAndEvict now viewers).1 →
        inner ≠ [] ∧ ∀ q ∈ inner, now - q.2 < 30)
    ∧ (∀ (now : Nat) (viewers : Viewers) (vid : String) (inner : List (String × Nat))
          (q : String × Nat),
        (vid, inner) ∈ viewers → q ∈ inner → now - q.2 < 30 →
        ∃ inner₂, (vid, inner₂) ∈ (snapshotAndEvict now viewers).1 ∧ q ∈ inner₂)
    ∧ snapshotAndEvict 20 (heartbeat [] "V" "A" "X" 0) = ([("V", [("A-X", 0)])], [("V", 1)])
    ∧ snapshotAndEvict 31 (heartbeat [] "V" "A" "X" 0) = ([], []) := by
  refine ⟨?_, ?_, ?_, by decide, by decide⟩
  · intro now viewers
    show ((viewers.map fun p => (p.1, p.2.filter fun q => now - q.2 < 30)).filter
            fun p => !p.2.isEmpty).map (fun p => (p.1, p.2.length))
        = (viewers.map fun p => (p.1, (p.2.filter fun q => now - q.2 < 30).length)).filter
            fun p => p.2 ≠ 0
    induction viewers with
    | nil => rfl
    | cons p t ih =>
      simp only [List.map_cons, List.filter_cons]
      by_cases he : (p.2.filter fun q => now - q.2 < 30) = []
      · have hise : (p.2.filter fun q => now - q.2 < 30).isEmpty = true := by simp [he]
        have hlen : (p.2.filter fun q => now - q.2 < 30).length = 0 := by simp [he]
        simp only [hise, hlen, Bool.not_true, decide_not]
        simpa using ih
      · have hise : (p.2.filter fun q => now - q.2 < 30).isEmpty = false := by
          cases hx : (p.2.filter fun q => now - q.2 < 30).isEmpty
          · rfl
          · exact absurd (List.isEmpty_iff.mp hx) he
        have hlen : (p.2.filter fun q => now - q.2 < 30).length ≠ 0 := by
          intro h0
          exact he (List.length_eq_zero.mp h0)
        simp only [hise, Bool.not_false, List.map_cons, hlen]
        simpa [hlen] using congrArg (List.cons (p.1, (p.2.filter fun q => now - q.2 < 30).length)) ih
  · intro now viewers vid inner hmem
    have hmem₂ : (vid, inner)
        ∈ (viewers.map fun p => (p.1, p.2.filter fun q => now - q.2 < 30)).filter
            fun p => !p.2.isEmpty := hmem
    simp only [List.mem_filter, List.mem_map] at hmem₂
    obtain ⟨⟨p, hp, hpe⟩, hne⟩ := hmem₂
    rw [Prod.mk.injEq] at hpe
    obtain ⟨-, h2⟩ := hpe
    subst h2
    constructor
    · intro hnil
      rw [hnil] at hne
      simp at hne
    · intro q hq
      have hmf := List.mem_filter.mp hq
      simpa using hmf.2
  · intro now viewers vid inner q hin hq hlt
    have hqf : q ∈ inner.filter fun r => now - r.2 < 30 :=
      List.mem_filter.mpr ⟨hq, by simpa using hlt⟩
    refine ⟨inner.filter fun r => now - r.2 < 30, ?_, hqf⟩
    show (vid, inner.filter fun r => now - r.2 < 30)
        ∈ (viewers.map fun p => (p.1, p.2.filter fun q₂ => now - q₂.2 < 30)).filter
            fun p => !p.2.isEmpty
    simp only [List.mem_filter, List.mem_map]
    refine ⟨⟨(vid, inner), hin, rfl⟩, ?_⟩
    cases hfil : inner.filter fun r => now - r.2 < 30 with
    | nil =>
      rw [hfil] at hqf
      cases hqf
    | cons a l => simp [hfil]

/-- C8 counterexample against the claim as stated: at a scan exactly 30
seconds after the heartbeat the viewer's entry is not older than 30 seconds,
yet the pass evicts it and returns the empty mapping instead of `{V:1}`. -/
theorem presence_eviction_boundary :
    (snapshotAndEvict 30 (heartbeat [] "V" "A" "X" 0)).2 = [] ∧ ¬ ((30 : Nat) - 0 > 30) :=
  ⟨by decide, by decide⟩

end Akane
